import Mathlib

/-!
Verification development for the tubesync-plex metadata synchroniser
(source of record: src/tubesync-plex-metadata.py).

The embedding is a shallow model of the program state and of the
operations the specification talks about:

* file paths are modelled as a stem plus an extension (`FPath`), so the
  with_suffix manipulations of the source become total functions;
  Path.resolve canonicalisation is modelled as the identity (all paths in
  a model state are already canonical);
* the filesystem, the path cache and the retry queue are association
  lists keyed by `FPath`, with Python dict assignment modelled by
  replace-or-append insertion;
* MD5 (an external library call) is a parameter `hashFn` of the pipeline:
  the claims only use that it is a function of the file bytes;
* the Plex server is an oracle `Plex` (fetchItem, find_plex_item, and the
  outcome of the edit sequence of apply_nfo);
* side effects that the claims mention (hash computation, server calls,
  sidecar deletion) are reified as an effect list returned alongside the
  result, and cache persistence is reified as a list of `PersistStep`
  I/O actions.
-/

/-- A filesystem path, as a stem plus extension. Path.with_suffix of the
source becomes replacing the `ext` component; canonicalisation
(Path.resolve) is the identity on this representation. -/
structure FPath where
  stem : String
  ext : String
deriving DecidableEq, Repr

/-- Python Path.with_suffix: replace the extension. -/
def withSuffix (p : FPath) (s : String) : FPath :=
  { stem := p.stem, ext := s }

/-- Contents of a regular file: its byte size and its bytes.
Only sidecar files are ever read, so this is all the model needs. -/
structure FileData where
  size : Nat
  bytes : List Nat
deriving DecidableEq, Repr

/-- The video extensions recognised by the source (VIDEO_EXTS, line 60). -/
def VIDEO_EXTS : List String :=
  [".mkv", ".mp4", ".avi", ".mov", ".wmv", ".flv", ".m4v"]

/-- One cache entry: both fields are optional exactly as in the JSON
cache file ({"ratingKey": ..., "nfo_hash": ...}, either absent). -/
structure CacheEntry where
  ratingKey : Option String
  nfo_hash : Option String
deriving DecidableEq, Repr

/-- A Plex item, identified by its ratingKey. -/
structure Item where
  ratingKey : String
deriving DecidableEq, Repr

/-- The Plex server oracle: fetchItem by ratingKey (None models a lookup
exception), find_plex_item by absolute video path, and the outcome of
the edit sequence that apply_nfo performs on an item (safe_edit plus the
sort-title edit and reloads), indexed by the ratingKey of the item. -/
structure Plex where
  fetch : String → Option Item
  find : FPath → Option Item
  editOk : String → Bool

/-- Association-list lookup (Python dict get). -/
def alookup {α : Type} (l : List (FPath × α)) (k : FPath) : Option α :=
  match l with
  | [] => none
  | (k', v) :: t => if k' = k then some v else alookup t k

/-- Association-list insert, replace-or-append (Python dict assignment). -/
def ainsert {α : Type} (l : List (FPath × α)) (k : FPath) (v : α) : List (FPath × α) :=
  match l with
  | [] => [(k, v)]
  | (k', v') :: t => if k' = k then (k, v) :: t else (k', v') :: ainsert t k v

/-- Association-list erase (Python dict pop). -/
def aerase {α : Type} (l : List (FPath × α)) (k : FPath) : List (FPath × α) :=
  match l with
  | [] => []
  | (k', v') :: t => if k' = k then t else (k', v') :: aerase t k

/-- The monitored filesystem: a finite map path → file contents. -/
abbrev FileSys := List (FPath × FileData)

/-- The path cache: a finite map video path → CacheEntry. -/
abbrev CacheMap := List (FPath × CacheEntry)

/-- Whole in-memory state of the process that the claims mention:
the filesystem, the cache with its dirty flag, the deleted_nfo_set,
the processed_files set, and the two log-deduplication sets. -/
structure AppState where
  fs : FileSys
  cache : CacheMap
  cacheModified : Bool
  deletedNfo : List FPath
  processed : List FPath
  loggedFailures : List FPath
  loggedSuccesses : List FPath
deriving DecidableEq, Repr

/-- Effects observable at the pipeline boundary, reified so that the
claims about "no server call", "no hash computed", "at most one edit"
can be stated. `editItem` stands for the edit sequence apply_nfo issues
against one item (safe_edit and the sort-title path). -/
inductive Eff where
  | computeHash (p : FPath)
  | fetchItem (key : String)
  | findItem (p : FPath)
  | editItem (key : String)
  | unlink (p : FPath)
deriving DecidableEq, Repr

/-- Is this effect a call to the Plex server? -/
def Eff.isServer : Eff → Bool
  | Eff.fetchItem _ => true
  | Eff.findItem _ => true
  | Eff.editItem _ => true
  | _ => false

/-- Is this effect a server metadata edit? -/
def Eff.isEdit : Eff → Bool
  | Eff.editItem _ => true
  | _ => false

/-- Number of server edits in an effect list. -/
def editCount (l : List Eff) : Nat :=
  (l.filter Eff.isEdit).length

/-- Number of server calls of any kind in an effect list. -/
def serverCallCount (l : List Eff) : Nat :=
  (l.filter Eff.isServer).length

/-- update_cache (tubesync-plex-metadata.py lines 272-287): merge the
non-None fields into the existing entry (or a fresh empty one) and set
the dirty flag. -/
def update_cache (st : AppState) (video_path : FPath)
    (ratingKey : Option String) (nfo_hash : Option String) : AppState :=
  let current := (alookup st.cache video_path).getD { ratingKey := none, nfo_hash := none }
  let current := match ratingKey with
    | some k => { current with ratingKey := some k }
    | none => current
  let current := match nfo_hash with
    | some h => { current with nfo_hash := some h }
    | none => current
  { st with cache := ainsert st.cache video_path current, cacheModified := true }

/-- remove_from_cache (lines 289-300): pop the key if present, set the
dirty flag only when something was removed. -/
def remove_from_cache (st : AppState) (video_path : FPath) : AppState :=
  match alookup st.cache video_path with
  | some _ => { st with cache := aerase st.cache video_path, cacheModified := true }
  | none => st

/-- I/O actions of cache persistence, reified. The temp-write and rename
actions exist in the vocabulary so that the atomicity claim is
expressible; save_cache below shows which actions the source emits. -/
inductive PersistStep where
  | mkdirParents (dir : String)
  | openTruncate (file : String)
  | writeAll (file : String) (entries : CacheMap)
  | writeTempFile (file : String)
  | renameFile (src : String) (dst : String)
deriving DecidableEq, Repr

/-- Does a persistence step write to a temporary file? -/
def PersistStep.isTempWrite : PersistStep → Bool
  | PersistStep.writeTempFile _ => true
  | _ => false

/-- Is a persistence step a rename? -/
def PersistStep.isRename : PersistStep → Bool
  | PersistStep.renameFile _ _ => true
  | _ => false

/-- The backing cache file name (CACHE_FILE, line 53). -/
def CACHE_FILE : String := "tubesync_cache.json"

/-- save_cache (lines 262-270): under cache_lock, if the dirty flag is
set, mkdir the parent, open the backing file in write mode (which
truncates it) and json.dump the whole map into it, then clear the flag.
There is no temporary file and no rename in the source. -/
def save_cache (st : AppState) : AppState × List PersistStep :=
  if st.cacheModified then
    ({ st with cacheModified := false },
      [PersistStep.mkdirParents "config-dir",
       PersistStep.openTruncate CACHE_FILE,
       PersistStep.writeAll CACHE_FILE st.cache])
  else
    (st, [])

/-- ASCII lowercase of one character (kernel-reducible version of
Char.toLower for the ASCII range the extensions live in). -/
def lowerChar (c : Char) : Char :=
  if 65 ≤ c.toNat ∧ c.toNat ≤ 90 then Char.ofNat (c.toNat + 32) else c

/-- ASCII lowercase of a string, over its character list. -/
def lowerStr (s : String) : String := String.mk (s.data.map lowerChar)

/-- Lowercased extension; the source compares suffixes lowercased
(p.suffix.lower()). -/
def extLower (p : FPath) : String := lowerStr p.ext

/-- process_nfo lines 491-503: determine the sidecar path and the video
path from the input. For a .nfo input, the video path is the input with
the suffix stripped; if that does not exist, the first existing
candidate over VIDEO_EXTS is taken, else the stripped path stands.
Returns (nfo_path, video_path). -/
def resolveVideoPath (fs : FileSys) (p : FPath) : FPath × FPath :=
  if extLower p = ".nfo" then
    let video0 := withSuffix p ""
    if (alookup fs video0).isSome then (p, video0)
    else
      match (VIDEO_EXTS.filter fun e => (alookup fs (withSuffix p e)).isSome) with
      | [] => (p, video0)
      | e :: _ => (p, withSuffix p e)
  else
    (withSuffix p ".nfo", p)

/-- compute_nfo_hash (lines 426-436): read the sidecar bytes and return
their MD5 hex digest, None if the file cannot be read. MD5 itself is an
external library call, passed in as hashFn. -/
def compute_nfo_hash (hashFn : List Nat → String) (fs : FileSys) (p : FPath) : Option String :=
  match alookup fs p with
  | some fd => some (hashFn fd.bytes)
  | none => none

/-- apply_nfo (lines 459-488): re-check that the sidecar beside the
video exists and is non-empty, parse it leniently, then issue the edit
sequence (safe_edit with locked fields, then the sort-title edit and a
reload). The field extraction and the individual HTTP calls are
abstracted into the oracle outcome plex.editOk of the whole sequence,
reified as the single effect editItem. -/
def apply_nfo (plex : Plex) (fs : FileSys) (itemKey : String) (file_path : FPath) :
    Bool × List Eff :=
  let nfo_path := withSuffix file_path ".nfo"
  match alookup fs nfo_path with
  | none => (false, [])
  | some fd =>
    if fd.size = 0 then (false, [])
    else if plex.editOk itemKey then (true, [Eff.editItem itemKey])
    else (false, [Eff.editItem itemKey])

/-- The sidecar deletion block of process_nfo (lines 519-528 and
554-561): under nfo_lock, if the path is not yet in deleted_nfo_set,
attempt the unlink and add the path to the set regardless of the
outcome of the attempt; if the path is already in the set, do nothing. -/
def deleteNfoStep (deleteFlag : Bool) (st : AppState) (nfo_path : FPath) :
    AppState × List Eff :=
  if deleteFlag then
    if nfo_path ∈ st.deletedNfo then (st, [])
    else
      ({ st with fs := aerase st.fs nfo_path, deletedNfo := nfo_path :: st.deletedNfo },
        [Eff.unlink nfo_path])
  else (st, [])

/-- Python truthiness of the cached ratingKey (`if ratingKey:`):
present and non-empty. -/
def truthyKey (k : Option String) : Option String :=
  match k with
  | some s => if s = "" then none else some s
  | none => none

/-- The apply phase of process_nfo (lines 550-566): run apply_nfo on the
resolved item; on success record ratingKey and nfo_hash in the cache and
run the sidecar deletion block; on failure return False. -/
def applyPhase (plex : Plex) (deleteFlag : Bool) (st : AppState)
    (nfo_path video_path : FPath) (nfoHash : String) (it : Item) (effs : List Eff) :
    Bool × AppState × List Eff :=
  let ares := apply_nfo plex st.fs it.ratingKey video_path
  if ares.1 then
    let st1 := update_cache st video_path (some it.ratingKey) (some nfoHash)
    let dres := deleteNfoStep deleteFlag st1 nfo_path
    (true, dres.1, effs ++ ares.2 ++ dres.2)
  else
    (false, st, effs ++ ares.2)

/-- The resolution block of process_nfo (lines 531-547) followed by the
apply phase: guarded by cache mismatch or forced application, try
fetchItem on a truthy cached ratingKey, fall back to find_plex_item
(recording the found ratingKey immediately), and return False when the
item cannot be resolved. When the guard is false no item is resolved and
the trailing `return True` of the source is reached. -/
def resolveAndApply (plex : Plex) (alwaysApplyNfo deleteFlag : Bool) (st : AppState)
    (nfo_path video_path : FPath) (nfoHash : String) (cached : CacheEntry) :
    Bool × AppState × List Eff :=
  if cached.nfo_hash ≠ some nfoHash ∨ alwaysApplyNfo = true then
    let fet : Option Item × List Eff :=
      match truthyKey cached.ratingKey with
      | some k => (plex.fetch k, [Eff.fetchItem k])
      | none => (none, [])
    match fet.1 with
    | some it => applyPhase plex deleteFlag st nfo_path video_path nfoHash it fet.2
    | none =>
      match plex.find video_path with
      | some it =>
        let st1 := update_cache st video_path (some it.ratingKey) none
        applyPhase plex deleteFlag st1 nfo_path video_path nfoHash it
          (fet.2 ++ [Eff.findItem video_path])
      | none => (false, st, fet.2 ++ [Eff.findItem video_path])
  else
    (true, st, [])

/-- process_nfo (tubesync-plex-metadata.py lines 490-566): resolve the
sidecar and video paths; fast-exit with False when the sidecar is absent
or empty; hash the sidecar; short-circuit at the idempotence gate when
the cached hash matches and ALWAYS_APPLY_NFO is false (running the
sidecar deletion block); otherwise resolve the Plex item and apply. -/
def process_nfo (plex : Plex) (alwaysApplyNfo deleteNfoAfterApply : Bool)
    (hashFn : List Nat → String) (st : AppState) (file_path : FPath) :
    Bool × AppState × List Eff :=
  let pr := resolveVideoPath st.fs file_path
  let nfo_path := pr.1
  let video_path := pr.2
  match alookup st.fs nfo_path with
  | none => (false, st, [])
  | some fd =>
    if fd.size = 0 then (false, st, [])
    else
      match compute_nfo_hash hashFn st.fs nfo_path with
      | none => (false, st, [Eff.computeHash nfo_path])
      | some nfoHash =>
        let cached := (alookup st.cache video_path).getD { ratingKey := none, nfo_hash := none }
        if cached.nfo_hash = some nfoHash ∧ alwaysApplyNfo = false then
          let dres := deleteNfoStep deleteNfoAfterApply st nfo_path
          (true, dres.1, Eff.computeHash nfo_path :: dres.2)
        else
          let r := resolveAndApply plex alwaysApplyNfo deleteNfoAfterApply st
            nfo_path video_path nfoHash cached
          (r.1, r.2.1, Eff.computeHash nfo_path :: r.2.2)

/-- Add to a Python set modelled as a list (no duplicates introduced). -/
def setAdd (l : List FPath) (p : FPath) : List FPath :=
  if p ∈ l then l else p :: l

/-- Python set.discard modelled on a list. -/
def setDiscard (l : List FPath) (p : FPath) : List FPath :=
  l.filter fun q => !decide (q = p)

/-- The NFO stage of process_file (lines 592-600): run process_nfo for
a .nfo input, or for a video input whose sidecar exists; otherwise the
stage succeeds with nothing to do. -/
def process_file_nfo_stage (plex : Plex) (alwaysApplyNfo deleteNfoAfterApply : Bool)
    (hashFn : List Nat → String) (st0 : AppState) (file_path : FPath) :
    Bool × AppState × List Eff :=
  if extLower file_path = ".nfo" then
    process_nfo plex alwaysApplyNfo deleteNfoAfterApply hashFn st0 file_path
  else if extLower file_path ∈ VIDEO_EXTS then
    if (alookup st0.fs (withSuffix file_path ".nfo")).isSome then
      process_nfo plex alwaysApplyNfo deleteNfoAfterApply hashFn st0
        (withSuffix file_path ".nfo")
    else (true, st0, [])
  else (true, st0, [])

/-- The cache-check tail of process_file (lines 602-637): classify by
Python truthiness of the cached ratingKey and nfo_hash pair and, when
unresolved, call find_plex_item and record the outcome. -/
def process_file_status (plex : Plex) (st1 : AppState) (file_path : FPath)
    (nfoApplied : Bool) (effs : List Eff) : Bool × AppState × List Eff :=
  let cachedEntry := alookup st1.cache file_path
  let rk := truthyKey (cachedEntry.bind fun e => e.ratingKey)
  let nh := truthyKey (cachedEntry.bind fun e => e.nfo_hash)
  if nfoApplied = true ∧ rk.isSome = true ∧ nh.isSome = true then
    (true, { st1 with loggedSuccesses := setAdd st1.loggedSuccesses file_path,
                      loggedFailures := setDiscard st1.loggedFailures file_path }, effs)
  else if rk.isSome = true ∧ nh.isSome = false then
    (true, { st1 with loggedSuccesses := setAdd st1.loggedSuccesses file_path,
                      loggedFailures := setDiscard st1.loggedFailures file_path }, effs)
  else
    match plex.find file_path with
    | some it =>
      let st2 := update_cache st1 file_path (some it.ratingKey) none
      (true, { st2 with loggedSuccesses := setAdd st2.loggedSuccesses file_path,
                        loggedFailures := setDiscard st2.loggedFailures file_path },
        effs ++ [Eff.findItem file_path])
    | none =>
      let st2 := update_cache st1 file_path none none
      (true, { st2 with loggedSuccesses := setAdd st2.loggedSuccesses file_path,
                        loggedFailures := setDiscard st2.loggedFailures file_path },
        effs ++ [Eff.findItem file_path])

/-- process_file (lines 577-643), assembled from its stages behind the
thread-safe duplicate rejection on processed_files. The schedule_timer
flag of the source only triggers the repair timer, a timer side effect
outside this model. -/
def process_file (plex : Plex) (alwaysApplyNfo deleteNfoAfterApply : Bool)
    (hashFn : List Nat → String) (st : AppState) (file_path : FPath)
    (_schedule_timer : Bool) : Bool × AppState × List Eff :=
  if file_path ∈ st.processed then (false, st, [])
  else
    let nres := process_file_nfo_stage plex alwaysApplyNfo deleteNfoAfterApply hashFn
      { st with processed := file_path :: st.processed } file_path
    process_file_status plex nres.2.1 file_path nres.1 nres.2.2

/-- One entry of MediaFileHandler.retry_queue:
(next_time, delay, retry_count, is_nfo), time in whole seconds. -/
structure RetryEntry where
  next_time : Nat
  delay : Nat
  retry_count : Nat
  is_nfo : Bool
deriving DecidableEq, Repr

/-- The retry queue: a dict path → RetryEntry. -/
abbrev RetryQueue := List (FPath × RetryEntry)

/-- MediaFileHandler.MAX_NFO_RETRY (line 735). -/
def MAX_NFO_RETRY : Nat := 5

/-- MediaFileHandler.MAX_RETRY_DELAY (line 736), seconds. -/
def MAX_RETRY_DELAY : Nat := 600

/-- MediaFileHandler._enqueue_retry (lines 757-760): unconditional dict
assignment retry_queue[path] = (now + delay, delay, retry_count, is_nfo). -/
def enqueue_retry (q : RetryQueue) (now : Nat) (path : FPath)
    (delay retry_count : Nat) (is_nfo : Bool) : RetryQueue :=
  ainsert q path
    { next_time := now + delay, delay := delay, retry_count := retry_count, is_nfo := is_nfo }

/-- The failure branch of MediaFileHandler.process_retry_queue (lines
809-815), acting on the queue after the ready item has been popped:
for an NFO item whose new attempt count reaches MAX_NFO_RETRY, log and
drop; otherwise re-enqueue with delay min(delay * 2, MAX_RETRY_DELAY)
and retry_count + 1. -/
def retryFailureStep (q : RetryQueue) (now : Nat) (path : FPath)
    (delay retry_count : Nat) (is_nfo : Bool) : RetryQueue :=
  if is_nfo = true ∧ MAX_NFO_RETRY ≤ retry_count + 1 then q
  else enqueue_retry q now path (min (delay * 2) MAX_RETRY_DELAY) (retry_count + 1) is_nfo

/-- scan_and_update_cache (line 1011): cache[path] = {"ratingKey": k}. -/
def scan_add_found (st : AppState) (path : FPath) (key : String) : AppState :=
  { st with cache := ainsert st.cache path { ratingKey := some key, nfo_hash := none },
            cacheModified := true }

/-- scan_and_update_cache (line 1014): cache[path] = {} placeholder. -/
def scan_add_placeholder (st : AppState) (path : FPath) : AppState :=
  { st with cache := ainsert st.cache path { ratingKey := none, nfo_hash := none },
            cacheModified := true }

/-- scan_and_update_cache (lines 1020-1025) and the vanished-path branch
of process_retry_queue (lines 774-780): pop the key, set dirty. -/
def scan_remove (st : AppState) (path : FPath) : AppState :=
  { st with cache := aerase st.cache path, cacheModified := true }

/-- Cache states reachable by the operations of the program, starting
from a fresh run with an empty cache. The filesystem may change
arbitrarily between operations (external writers), and each constructor
is one mutation site of the source: the apply pipeline, the unified file
processor, cache removal on delete or move events, the one-shot scan
assignments, the repair sweep (update_cache with a ratingKey only,
lines 940-943), and flushing. -/
inductive Reach : AppState → Prop where
  | init (fs : FileSys) :
      Reach { fs := fs, cache := [], cacheModified := false, deletedNfo := [],
              processed := [], loggedFailures := [], loggedSuccesses := [] }
  | fsChange (fs' : FileSys) {st : AppState} : Reach st → Reach { st with fs := fs' }
  | stepNfo (plex : Plex) (a d : Bool) (hf : List Nat → String) (p : FPath)
      {st : AppState} : Reach st → Reach (process_nfo plex a d hf st p).2.1
  | stepFile (plex : Plex) (a d : Bool) (hf : List Nat → String) (p : FPath)
      (timer : Bool) {st : AppState} :
      Reach st → Reach (process_file plex a d hf st p timer).2.1
  | stepRemove (p : FPath) {st : AppState} : Reach st → Reach (remove_from_cache st p)
  | stepScanFound (p : FPath) (k : String) {st : AppState} :
      Reach st → Reach (scan_add_found st p k)
  | stepScanPlaceholder (p : FPath) {st : AppState} :
      Reach st → Reach (scan_add_placeholder st p)
  | stepScanRemove (p : FPath) {st : AppState} : Reach st → Reach (scan_remove st p)
  | stepRepair (p : FPath) (k : String) {st : AppState} :
      Reach st → Reach (update_cache st p (some k) none)
  | stepFlush {st : AppState} : Reach st → Reach (save_cache st).1

/-- The I2 / P3 cache shape: every recorded binding with an nfo_hash
also carries a ratingKey. Stated over all bindings of the association
list so that it is preserved by insertion and erasure. -/
def hashImpliesKey (c : CacheMap) : Prop :=
  ∀ pe ∈ c, pe.2.nfo_hash.isSome = true → pe.2.ratingKey.isSome = true

/-- Actions on the shared HTTP session, with the bounded semaphore
acquire/release reified, for the rate-limiting claim. -/
inductive ApiAction where
  | acquire
  | httpCall (desc : String)
  | sleepDelay
  | release
deriving DecidableEq, Repr

/-- Scan an action trace keeping the number of semaphore slots held;
true exactly when every httpCall happens with at least one slot held. -/
def guardedFrom : Nat → List ApiAction → Bool
  | _, [] => true
  | d, ApiAction.acquire :: t => guardedFrom (d + 1) t
  | d, ApiAction.release :: t => guardedFrom (d - 1) t
  | d, ApiAction.httpCall _ :: t => decide (0 < d) && guardedFrom d t
  | d, ApiAction.sleepDelay :: t => guardedFrom d t

/-- Every HTTP call in the trace is made while the semaphore is held. -/
def allCallsGuarded (tr : List ApiAction) : Bool := guardedFrom 0 tr

/-- The outbound calls of safe_edit (lines 438-457): item.edit plus
item.reload, with no semaphore operation anywhere in the function. -/
def safe_edit_actions : List ApiAction :=
  [ApiAction.httpCall "item.edit", ApiAction.httpCall "item.reload"]

/-- The outbound calls of find_plex_item (lines 382-418): section lookup
and search, again with no semaphore operation. -/
def find_plex_item_actions : List ApiAction :=
  [ApiAction.httpCall "library.sectionByID", ApiAction.httpCall "section.search"]

/-- One iteration of upload_subtitles (lines 673-694): the upload call
and the request-delay sleep both inside the `with api_semaphore` block. -/
def upload_subtitles_actions : List ApiAction :=
  [ApiAction.acquire, ApiAction.httpCall "item.uploadSubtitles",
   ApiAction.sleepDelay, ApiAction.release]

/-- A concrete dirty cache state used by the persistence counterexample. -/
def dirtyState : AppState :=
  { fs := [],
    cache := [({ stem := "lib/ep1", ext := ".mkv" },
               { ratingKey := some "42", nfo_hash := some "aa" })],
    cacheModified := true, deletedNfo := [], processed := [],
    loggedFailures := [], loggedSuccesses := [] }

/-- The sidecar-presence test of the fast exit (line 505):
nfo_path.exists() and nfo_path.stat().st_size != 0. -/
def sidecarUsable (fs : FileSys) (nfoP : FPath) : Bool :=
  match alookup fs nfoP with
  | some fd => decide (fd.size ≠ 0)
  | none => false

/-- Is this effect a sidecar unlink? -/
def Eff.isUnlink : Eff → Bool
  | Eff.unlink _ => true
  | _ => false

/-- Number of sidecar unlinks in an effect list. -/
def unlinkCount (l : List Eff) : Nat :=
  (l.filter Eff.isUnlink).length

/-- A concrete server oracle for witnesses: search always finds item 42
and edits succeed; direct fetch misses (forcing the search path). -/
def examplePlex : Plex :=
  { fetch := fun _ => none,
    find := fun _ => some { ratingKey := "42" },
    editOk := fun _ => true }

/-- A concrete stand-in for the MD5 hex digest in witnesses: any
function of the bytes instantiates the hashFn parameter. -/
def exampleHash : List Nat → String :=
  fun bs => String.intercalate "," (bs.map toString)

/-- Witness fixture: a video path. -/
def wVideo : FPath := { stem := "lib/show/ep1", ext := ".mkv" }

/-- Witness fixture: the sidecar beside wVideo. -/
def wNfo : FPath := { stem := "lib/show/ep1", ext := ".nfo" }

/-- Witness fixture: a filesystem holding the video and a non-empty
sidecar. -/
def wFs : FileSys :=
  [(wVideo, { size := 10, bytes := [0] }),
   (wNfo, { size := 4, bytes := [1, 2] })]

/-- Witness fixture: a fresh state over wFs. -/
def wState : AppState :=
  { fs := wFs, cache := [], cacheModified := false, deletedNfo := [],
    processed := [], loggedFailures := [], loggedSuccesses := [] }

/-- Lookup after replace-or-append insertion. -/
theorem alookup_ainsert {α : Type} (l : List (FPath × α)) (k k' : FPath) (v : α) :
    alookup (ainsert l k v) k' = if k = k' then some v else alookup l k' := by
  induction l with
  | nil => simp [ainsert, alookup]
  | cons hd t ih =>
    obtain ⟨hk, hv⟩ := hd
    by_cases e1 : hk = k
    · subst e1
      simp only [ainsert, if_pos rfl, alookup]
      by_cases e2 : hk = k' <;> simp [e2]
    · simp only [ainsert, if_neg e1, alookup]
      by_cases e2 : hk = k'
      · subst e2
        have hne : ¬ k = hk := fun h => e1 h.symm
        simp [alookup, ainsert, if_neg e1, hne]
      · simp [e2, ih]

/-- A successful lookup is a member of the association list. -/
theorem alookup_mem {α : Type} {l : List (FPath × α)} {k : FPath} {v : α}
    (h : alookup l k = some v) : (k, v) ∈ l := by
  induction l with
  | nil => simp [alookup] at h
  | cons hd t ih =>
    obtain ⟨hk, hv⟩ := hd
    simp only [alookup] at h
    by_cases e : hk = k
    · subst e; simp [if_pos rfl] at h; subst h; exact List.mem_cons_self _ _
    · simp only [if_neg e] at h
      exact List.mem_cons_of_mem _ (ih h)

/-- Members after insertion are the new binding or old members. -/
theorem mem_ainsert {α : Type} {x : FPath × α} {l : List (FPath × α)} {k : FPath} {v : α}
    (h : x ∈ ainsert l k v) : x = (k, v) ∨ x ∈ l := by
  induction l with
  | nil => simp [ainsert] at h; simp [h]
  | cons hd t ih =>
    obtain ⟨hk, hv⟩ := hd
    simp only [ainsert] at h
    by_cases e : hk = k
    · simp only [if_pos e] at h
      rcases List.mem_cons.mp h with h1 | h2
      · exact Or.inl h1
      · exact Or.inr (List.mem_cons_of_mem _ h2)
    · simp only [if_neg e] at h
      rcases List.mem_cons.mp h with h1 | h2
      · exact Or.inr (by simp [h1])
      · rcases ih h2 with h3 | h4
        · exact Or.inl h3
        · exact Or.inr (List.mem_cons_of_mem _ h4)

/-- Members after erasure were members before. -/
theorem mem_aerase {α : Type} {x : FPath × α} {l : List (FPath × α)} {k : FPath}
    (h : x ∈ aerase l k) : x ∈ l := by
  induction l with
  | nil => simp [aerase] at h
  | cons hd t ih =>
    obtain ⟨hk, hv⟩ := hd
    simp only [aerase] at h
    by_cases e : hk = k
    · simp only [if_pos e] at h
      exact List.mem_cons_of_mem _ h
    · simp only [if_neg e] at h
      rcases List.mem_cons.mp h with h1 | h2
      · simp [h1]
      · exact List.mem_cons_of_mem _ (ih h2)

/-- Edit counting distributes over append. -/
theorem editCount_append (a b : List Eff) :
    editCount (a ++ b) = editCount a + editCount b := by
  simp [editCount, List.filter_append]

/-- Server-call counting distributes over append. -/
theorem serverCallCount_append (a b : List Eff) :
    serverCallCount (a ++ b) = serverCallCount a + serverCallCount b := by
  simp [serverCallCount, List.filter_append]

/-- update_cache leaves every non-cache component of the state alone. -/
theorem update_cache_frame (st : AppState) (p : FPath) (rk h : Option String) :
    (update_cache st p rk h).fs = st.fs
    ∧ (update_cache st p rk h).deletedNfo = st.deletedNfo
    ∧ (update_cache st p rk h).processed = st.processed :=
  ⟨rfl, rfl, rfl⟩

/-- deleteNfoStep leaves the cache, the processed set and the queue
state alone; it only touches the filesystem and deleted_nfo_set. -/
theorem deleteNfoStep_frame (d : Bool) (st : AppState) (p : FPath) :
    (deleteNfoStep d st p).1.cache = st.cache
    ∧ (deleteNfoStep d st p).1.processed = st.processed
    ∧ (deleteNfoStep d st p).1.cacheModified = st.cacheModified := by
  unfold deleteNfoStep
  split
  · split
    · exact ⟨rfl, rfl, rfl⟩
    · exact ⟨rfl, rfl, rfl⟩
  · exact ⟨rfl, rfl, rfl⟩

/-- deleteNfoStep emits no server effect and no edit. -/
theorem deleteNfoStep_effects (d : Bool) (st : AppState) (p : FPath) :
    serverCallCount (deleteNfoStep d st p).2 = 0
    ∧ editCount (deleteNfoStep d st p).2 = 0 := by
  unfold deleteNfoStep
  split
  · split
    · exact ⟨rfl, rfl⟩
    · simp [serverCallCount, editCount, Eff.isServer, Eff.isEdit]
  · exact ⟨rfl, rfl⟩

/-- If the sidecar path is already in deleted_nfo_set, the deletion
block is a complete no-op. -/
theorem deleteNfoStep_already_deleted (d : Bool) (st : AppState) (p : FPath)
    (hmem : p ∈ st.deletedNfo) : deleteNfoStep d st p = (st, []) := by
  unfold deleteNfoStep
  by_cases hd : d = true
  · simp [hd, hmem]
  · simp [hd]

/-- C5 counterexample: the claim says a duplicate enqueue of an
already-queued path leaves due_at, current_delay and attempt count
unchanged and never shortens an outstanding delay. In the source,
_enqueue_retry is an unconditional dict assignment: for a path queued
with (due_at 1060, delay 60, attempts 1) a duplicate NFO event at t=1010
replaces the entry by (due_at 1040, delay 30, attempts 0), shortening
the outstanding delay from 1060 to 1040. -/
theorem enqueue_retry_duplicate_counterexample :
    let p : FPath := { stem := "media/show/ep1", ext := ".nfo" }
    let q : RetryQueue :=
      [(p, { next_time := 1060, delay := 60, retry_count := 1, is_nfo := true })]
    alookup (enqueue_retry q 1010 p 30 0 true) p =
      some { next_time := 1040, delay := 30, retry_count := 0, is_nfo := true }
    ∧ alookup q p = some { next_time := 1060, delay := 60, retry_count := 1, is_nfo := true }
    ∧ alookup (enqueue_retry q 1010 p 30 0 true) p ≠ alookup q p
    ∧ (1040 : Nat) < 1060 := by
  decide

/-- C5 (amended): enqueueing a path, whether or not it is already
queued, overwrites the queue entry with due_at = now + delay and the
given delay and attempt count; a duplicate event therefore resets (and
can shorten) an outstanding delay. -/
theorem enqueue_retry_overwrites (q : RetryQueue) (now : Nat) (path : FPath)
    (delay retry_count : Nat) (is_nfo : Bool) :
    alookup (enqueue_retry q now path delay retry_count is_nfo) path =
      some { next_time := now + delay, delay := delay,
             retry_count := retry_count, is_nfo := is_nfo } := by
  unfold enqueue_retry
  simp [alookup_ainsert]

/-- C6: on a failure that does not hit the NFO attempt cap, the retry
item is rescheduled with current_delay = min(old x 2, 600), attempt
count incremented by one and due_at = now + new delay; below the cap the
new delay is exactly double (strict doubling), at the cap it is 600. -/
theorem retry_backoff_step (q : RetryQueue) (now : Nat) (path : FPath)
    (delay retry_count : Nat) (is_nfo : Bool)
    (hkeep : ¬(is_nfo = true ∧ MAX_NFO_RETRY ≤ retry_count + 1)) :
    alookup (retryFailureStep q now path delay retry_count is_nfo) path =
      some { next_time := now + min (delay * 2) MAX_RETRY_DELAY,
             delay := min (delay * 2) MAX_RETRY_DELAY,
             retry_count := retry_count + 1, is_nfo := is_nfo }
    ∧ (delay * 2 ≤ MAX_RETRY_DELAY → min (delay * 2) MAX_RETRY_DELAY = delay * 2)
    ∧ (MAX_RETRY_DELAY < delay * 2 → min (delay * 2) MAX_RETRY_DELAY = MAX_RETRY_DELAY)
    ∧ (0 < delay → delay * 2 ≤ MAX_RETRY_DELAY →
        delay < min (delay * 2) MAX_RETRY_DELAY) := by
  refine ⟨?_, ?_, ?_, ?_⟩
  · unfold retryFailureStep
    rw [if_neg hkeep]
    exact enqueue_retry_overwrites q now path _ _ is_nfo
  · intro h; exact Nat.min_eq_left h
  · intro h; exact Nat.min_eq_right (Nat.le_of_lt h)
  · intro hpos h
    rw [Nat.min_eq_left h]
    omega

/-- Witness for retry_backoff_step at a concrete input: an NFO item on
its second failure, delay 60 doubling to 120. -/
theorem retry_backoff_step_witness :
    alookup (retryFailureStep [] 1000 { stem := "a", ext := ".nfo" } 60 1 true)
        { stem := "a", ext := ".nfo" } =
      some { next_time := 1120, delay := 120, retry_count := 2, is_nfo := true } :=
  (retry_backoff_step [] 1000 { stem := "a", ext := ".nfo" } 60 1 true
    (by decide)).1

/-- C7: after a failure, an NFO-kind item whose new attempt count
reaches MAX_NFO_RETRY (5) is dropped (the path, already popped, is not
re-enqueued), while a video-kind item is rescheduled whatever its
attempt count is - the video kind has no attempt cap. -/
theorem retry_kind_cap (q : RetryQueue) (now : Nat) (path : FPath) (delay : Nat)
    (hpopped : alookup q path = none) :
    (∀ retry_count : Nat, MAX_NFO_RETRY ≤ retry_count + 1 →
      alookup (retryFailureStep q now path delay retry_count true) path = none)
    ∧ (∀ retry_count : Nat,
      alookup (retryFailureStep q now path delay retry_count false) path =
        some { next_time := now + min (delay * 2) MAX_RETRY_DELAY,
               delay := min (delay * 2) MAX_RETRY_DELAY,
               retry_count := retry_count + 1, is_nfo := false }) := by
  constructor
  · intro rc hrc
    unfold retryFailureStep
    rw [if_pos ⟨rfl, hrc⟩]
    exact hpopped
  · intro rc
    unfold retryFailureStep
    rw [if_neg (by simp)]
    exact enqueue_retry_overwrites q now path _ _ false

/-- Witness for retry_kind_cap: empty queue, NFO item at its fifth
attempt is dropped; a video item at attempt 50 is still rescheduled. -/
theorem retry_kind_cap_witness :
    alookup (retryFailureStep [] 0 { stem := "b", ext := ".nfo" } 480 4 true)
        { stem := "b", ext := ".nfo" } = none
    ∧ alookup (retryFailureStep [] 0 { stem := "c", ext := ".mkv" } 600 50 false)
        { stem := "c", ext := ".mkv" } =
      some { next_time := 600, delay := 600, retry_count := 51, is_nfo := false } := by
  constructor
  · exact (retry_kind_cap [] 0 { stem := "b", ext := ".nfo" } 480 rfl).1 4 (by decide)
  · exact (retry_kind_cap [] 0 { stem := "c", ext := ".mkv" } 600 rfl).2 50


/-- C2 counterexample: the claim says a dirty flush writes to a
temporary file and renames it over the backing file. On a concrete
dirty state the emitted I/O steps contain no temp-file write and no
rename at all (the flush is not empty, it truncates the backing file in
place), so the write-to-temp-plus-rename discipline the claim asserts
is absent. -/
theorem save_cache_no_rename_counterexample :
    (save_cache dirtyState).2.filter PersistStep.isRename = []
    ∧ (save_cache dirtyState).2.filter PersistStep.isTempWrite = []
    ∧ (save_cache dirtyState).2 ≠ []
    ∧ PersistStep.openTruncate CACHE_FILE ∈ (save_cache dirtyState).2 := by
  decide

/-- C2 (amended): when the dirty flag is set, save_cache writes the
whole cache map directly into the backing file (opening it in write
mode, which truncates it in place) and clears the dirty flag; it uses
no temporary file and no rename, so no atomicity against a concurrent
reader is provided by the write discipline. -/
theorem save_cache_in_place (st : AppState) (hdirty : st.cacheModified = true) :
    (save_cache st).1 = { st with cacheModified := false }
    ∧ PersistStep.openTruncate CACHE_FILE ∈ (save_cache st).2
    ∧ PersistStep.writeAll CACHE_FILE st.cache ∈ (save_cache st).2
    ∧ (save_cache st).2.filter PersistStep.isRename = []
    ∧ (save_cache st).2.filter PersistStep.isTempWrite = [] := by
  unfold save_cache
  rw [if_pos hdirty]
  refine ⟨rfl, ?_, ?_, ?_, ?_⟩
  · simp
  · simp
  · simp [PersistStep.isRename]
  · simp [PersistStep.isTempWrite]

/-- Witness for save_cache_in_place on the concrete dirty state. -/
theorem save_cache_in_place_witness :
    (save_cache dirtyState).1 = { dirtyState with cacheModified := false }
    ∧ PersistStep.openTruncate CACHE_FILE ∈ (save_cache dirtyState).2
    ∧ PersistStep.writeAll CACHE_FILE dirtyState.cache ∈ (save_cache dirtyState).2
    ∧ (save_cache dirtyState).2.filter PersistStep.isRename = []
    ∧ (save_cache dirtyState).2.filter PersistStep.isTempWrite = [] :=
  save_cache_in_place dirtyState rfl

/-- C8 counterexample: the claim says every outbound API call, metadata
edits included, acquires the bounded semaphore. The action trace of
safe_edit (the metadata-edit path, lines 438-457) and the trace of
find_plex_item issue their HTTP calls with no semaphore held. -/
theorem semaphore_guard_counterexample :
    allCallsGuarded safe_edit_actions = false
    ∧ allCallsGuarded find_plex_item_actions = false := by
  decide

/-- C8 (amended): only the subtitle-upload path runs under the bounded
semaphore, with the request-delay sleep after the call and before the
slot is released; the metadata-edit path (safe_edit) and the library
lookup path (find_plex_item) issue their HTTP calls without acquiring
the semaphore, so the max_concurrent_requests bound does not cover
them. -/
theorem semaphore_guards_only_subtitles :
    allCallsGuarded upload_subtitles_actions = true
    ∧ (upload_subtitles_actions.filter (fun a => decide (a = ApiAction.sleepDelay))).length = 1
    ∧ upload_subtitles_actions.indexOf ApiAction.sleepDelay <
        upload_subtitles_actions.indexOf ApiAction.release
    ∧ upload_subtitles_actions.indexOf (ApiAction.httpCall "item.uploadSubtitles") <
        upload_subtitles_actions.indexOf ApiAction.sleepDelay
    ∧ allCallsGuarded safe_edit_actions = false
    ∧ allCallsGuarded find_plex_item_actions = false := by
  decide

/-- C1 counterexample: the claim says that with the sidecar absent the
apply pipeline returns a "nothing to do" success. On a state holding
the video but no sidecar, process_nfo returns False, not success. -/
theorem process_nfo_missing_sidecar_counterexample :
    (process_nfo examplePlex false true exampleHash
      { fs := [({ stem := "m/ep1", ext := ".mkv" }, { size := 100, bytes := [7] })],
        cache := [], cacheModified := false, deletedNfo := [], processed := [],
        loggedFailures := [], loggedSuccesses := [] }
      { stem := "m/ep1", ext := ".mkv" }).1 = false := by
  decide

/-- C1 (amended): when the sidecar does not exist or has size 0,
process_nfo returns False (a failure in watch mode, not a success)
without computing a hash, contacting the server, or modifying any state
(cache included): the result is exactly (False, unchanged state, no
effects). -/
theorem process_nfo_fast_exit (plex : Plex) (a d : Bool) (hf : List Nat → String)
    (st : AppState) (p : FPath)
    (habsent : sidecarUsable st.fs (resolveVideoPath st.fs p).1 = false) :
    process_nfo plex a d hf st p = (false, st, []) := by
  unfold process_nfo
  cases hl : alookup st.fs (resolveVideoPath st.fs p).1 with
  | none => simp [hl]
  | some fd =>
    have hsz : fd.size = 0 := by
      unfold sidecarUsable at habsent
      rw [hl] at habsent
      simpa using habsent
    simp [hl, hsz]

/-- Witness for process_nfo_fast_exit: a state whose only file is the
video, the sidecar missing. -/
theorem process_nfo_fast_exit_witness :
    process_nfo examplePlex true true exampleHash
      { fs := [(wVideo, { size := 10, bytes := [0] })], cache := [],
        cacheModified := false, deletedNfo := [], processed := [],
        loggedFailures := [], loggedSuccesses := [] } wVideo =
      (false,
        { fs := [(wVideo, { size := 10, bytes := [0] })], cache := [],
          cacheModified := false, deletedNfo := [], processed := [],
          loggedFailures := [], loggedSuccesses := [] }, []) :=
  process_nfo_fast_exit examplePlex true true exampleHash _ wVideo (by decide)

/-- Unlink counting distributes over append. -/
theorem unlinkCount_append (a b : List Eff) :
    unlinkCount (a ++ b) = unlinkCount a + unlinkCount b := by
  simp [unlinkCount, List.filter_append]

/-- Prepending a hash-computation effect does not change the unlink
count. -/
theorem unlinkCount_cons_computeHash (q : FPath) (l : List Eff) :
    unlinkCount (Eff.computeHash q :: l) = unlinkCount l := by
  simp [unlinkCount, List.filter_cons, Eff.isUnlink]

/-- apply_nfo never unlinks anything; its only effect is the edit. -/
theorem apply_nfo_no_unlink (plex : Plex) (fs : FileSys) (k : String) (p : FPath) :
    unlinkCount (apply_nfo plex fs k p).2 = 0 := by
  simp only [apply_nfo]
  split
  · rfl
  · split
    · rfl
    · split <;> simp [unlinkCount, Eff.isUnlink]

/-- If the sidecar is already in deleted_nfo_set, the apply phase
leaves the filesystem untouched and performs no unlink. -/
theorem applyPhase_deleted (plex : Plex) (dflag : Bool) (st : AppState)
    (nfoP vP : FPath) (hsh : String) (it : Item) (effs : List Eff)
    (hmem : nfoP ∈ st.deletedNfo) (hueffs : unlinkCount effs = 0) :
    (applyPhase plex dflag st nfoP vP hsh it effs).2.1.fs = st.fs
    ∧ unlinkCount (applyPhase plex dflag st nfoP vP hsh it effs).2.2 = 0 := by
  simp only [applyPhase]
  split
  · rw [deleteNfoStep_already_deleted dflag
      (update_cache st vP (some it.ratingKey) (some hsh)) nfoP hmem]
    constructor
    · rfl
    · rw [List.append_nil, unlinkCount_append, hueffs, apply_nfo_no_unlink]
  · constructor
    · rfl
    · rw [unlinkCount_append, hueffs, apply_nfo_no_unlink]

/-- If the sidecar is already in deleted_nfo_set, the resolve-and-apply
block leaves the filesystem untouched and performs no unlink. -/
theorem resolveAndApply_deleted (plex : Plex) (a dflag : Bool) (st : AppState)
    (nfoP vP : FPath) (hsh : String) (cached : CacheEntry)
    (hmem : nfoP ∈ st.deletedNfo) :
    (resolveAndApply plex a dflag st nfoP vP hsh cached).2.1.fs = st.fs
    ∧ unlinkCount (resolveAndApply plex a dflag st nfoP vP hsh cached).2.2 = 0 := by
  simp only [resolveAndApply]
  split
  · cases hk : truthyKey cached.ratingKey with
    | some k =>
      simp only [hk]
      cases hf2 : plex.fetch k with
      | some it =>
        simp only [hf2]
        exact applyPhase_deleted plex dflag st nfoP vP hsh it [Eff.fetchItem k] hmem
          (by simp [unlinkCount, Eff.isUnlink])
      | none =>
        simp only [hf2]
        cases hfind : plex.find vP with
        | some it =>
          simp only [hfind]
          exact applyPhase_deleted plex dflag
            (update_cache st vP (some it.ratingKey) none) nfoP vP hsh it
            ([Eff.fetchItem k] ++ [Eff.findItem vP]) hmem
            (by simp [unlinkCount, Eff.isUnlink])
        | none =>
          simp only [hfind]
          refine ⟨by simp, by simp [unlinkCount, Eff.isUnlink]⟩
    | none =>
      simp only [hk]
      cases hfind : plex.find vP with
      | some it =>
        simp only [hfind]
        exact applyPhase_deleted plex dflag
          (update_cache st vP (some it.ratingKey) none) nfoP vP hsh it
          (([] : List Eff) ++ [Eff.findItem vP]) hmem
          (by simp [unlinkCount, Eff.isUnlink])
      | none =>
        simp only [hfind]
        refine ⟨by simp, by simp [unlinkCount, Eff.isUnlink]⟩
  · exact ⟨rfl, rfl⟩

/-- C10: once a sidecar path is in deleted_nfo_set, any later
process_nfo invocation that resolves that same sidecar path (apply or
cache-hit skip, with any always_apply / delete-after-apply policy)
leaves the filesystem untouched and performs no unlink: a sidecar path
is unlinked at most once per process lifetime. -/
theorem nfo_unlinked_at_most_once (plex : Plex) (a d : Bool)
    (hf : List Nat → String) (st : AppState) (p : FPath)
    (hmem : (resolveVideoPath st.fs p).1 ∈ st.deletedNfo) :
    (process_nfo plex a d hf st p).2.1.fs = st.fs
    ∧ unlinkCount (process_nfo plex a d hf st p).2.2 = 0 := by
  simp only [process_nfo]
  cases hl : alookup st.fs (resolveVideoPath st.fs p).1 with
  | none => simp [unlinkCount]
  | some fd =>
    simp only []
    by_cases hsz : fd.size = 0
    · simp [hsz, unlinkCount]
    · rw [if_neg hsz]
      have hc : compute_nfo_hash hf st.fs (resolveVideoPath st.fs p).1 =
          some (hf fd.bytes) := by
        simp [compute_nfo_hash, hl]
      simp only [hc]
      split
      · rw [deleteNfoStep_already_deleted d st _ hmem]
        exact ⟨rfl, by simp [unlinkCount, Eff.isUnlink]⟩
      · have hra := resolveAndApply_deleted plex a d st
          (resolveVideoPath st.fs p).1 (resolveVideoPath st.fs p).2 (hf fd.bytes)
          ((alookup st.cache (resolveVideoPath st.fs p).2).getD
            { ratingKey := none, nfo_hash := none }) hmem
        exact ⟨hra.1, by rw [unlinkCount_cons_computeHash, hra.2]⟩

/-- Witness for nfo_unlinked_at_most_once: the sidecar of wVideo was
deleted once already; a cache-hit invocation with delete enabled leaves
the filesystem (holding a recreated sidecar) unchanged. -/
theorem nfo_unlinked_at_most_once_witness :
    (process_nfo examplePlex false true exampleHash
      { fs := wFs, cache := [(wVideo, { ratingKey := some "42", nfo_hash := some "1,2" })],
        cacheModified := false, deletedNfo := [wNfo], processed := [],
        loggedFailures := [], loggedSuccesses := [] } wVideo).2.1.fs = wFs
    ∧ unlinkCount (process_nfo examplePlex false true exampleHash
      { fs := wFs, cache := [(wVideo, { ratingKey := some "42", nfo_hash := some "1,2" })],
        cacheModified := false, deletedNfo := [wNfo], processed := [],
        loggedFailures := [], loggedSuccesses := [] } wVideo).2.2 = 0 :=
  nfo_unlinked_at_most_once examplePlex false true exampleHash _ wVideo (by decide)

/-- The apply phase does not touch the processed_files set. -/
theorem applyPhase_processed (plex : Plex) (dflag : Bool) (st : AppState)
    (nfoP vP : FPath) (hsh : String) (it : Item) (effs : List Eff) :
    (applyPhase plex dflag st nfoP vP hsh it effs).2.1.processed = st.processed := by
  simp only [applyPhase]
  split
  · exact (deleteNfoStep_frame dflag
      (update_cache st vP (some it.ratingKey) (some hsh)) nfoP).2.1
  · rfl

/-- The resolve-and-apply block does not touch the processed_files set. -/
theorem resolveAndApply_processed (plex : Plex) (a dflag : Bool) (st : AppState)
    (nfoP vP : FPath) (hsh : String) (cached : CacheEntry) :
    (resolveAndApply plex a dflag st nfoP vP hsh cached).2.1.processed = st.processed := by
  simp only [resolveAndApply]
  split
  · cases hk : truthyKey cached.ratingKey with
    | some k =>
      simp only [hk]
      cases hf2 : plex.fetch k with
      | some it =>
        simp only [hf2]
        exact applyPhase_processed plex dflag st nfoP vP hsh it [Eff.fetchItem k]
      | none =>
        simp only [hf2]
        cases hfind : plex.find vP with
        | some it =>
          simp only [hfind]
          exact applyPhase_processed plex dflag
            (update_cache st vP (some it.ratingKey) none) nfoP vP hsh it
            ([Eff.fetchItem k] ++ [Eff.findItem vP])
        | none => simp only [hfind]
    | none =>
      simp only [hk]
      cases hfind : plex.find vP with
      | some it =>
        simp only [hfind]
        exact applyPhase_processed plex dflag
          (update_cache st vP (some it.ratingKey) none) nfoP vP hsh it
          (([] : List Eff) ++ [Eff.findItem vP])
      | none => simp only [hfind]
  · rfl

/-- process_nfo does not touch the processed_files set. -/
theorem process_nfo_processed (plex : Plex) (a d : Bool) (hf : List Nat → String)
    (st : AppState) (p : FPath) :
    (process_nfo plex a d hf st p).2.1.processed = st.processed := by
  simp only [process_nfo]
  cases hl : alookup st.fs (resolveVideoPath st.fs p).1 with
  | none => rfl
  | some fd =>
    simp only []
    by_cases hsz : fd.size = 0
    · simp [hsz]
    · rw [if_neg hsz]
      have hc : compute_nfo_hash hf st.fs (resolveVideoPath st.fs p).1 =
          some (hf fd.bytes) := by
        simp [compute_nfo_hash, hl]
      simp only [hc]
      split
      · exact (deleteNfoStep_frame d st (resolveVideoPath st.fs p).1).2.1
      · exact resolveAndApply_processed plex a d st
          (resolveVideoPath st.fs p).1 (resolveVideoPath st.fs p).2 (hf fd.bytes)
          ((alookup st.cache (resolveVideoPath st.fs p).2).getD
            { ratingKey := none, nfo_hash := none })

/-- The NFO stage of process_file does not touch processed_files. -/
theorem process_file_nfo_stage_processed (plex : Plex) (a d : Bool)
    (hf : List Nat → String) (st0 : AppState) (p : FPath) :
    (process_file_nfo_stage plex a d hf st0 p).2.1.processed = st0.processed := by
  simp only [process_file_nfo_stage]
  split
  · exact process_nfo_processed plex a d hf st0 p
  · split
    · split
      · exact process_nfo_processed plex a d hf st0 (withSuffix p ".nfo")
      · rfl
    · rfl

/-- The status tail of process_file does not touch processed_files. -/
theorem process_file_status_processed (plex : Plex) (st1 : AppState) (p : FPath)
    (nfoApplied : Bool) (effs : List Eff) :
    (process_file_status plex st1 p nfoApplied effs).2.1.processed = st1.processed := by
  simp only [process_file_status]
  split
  · rfl
  · split
    · rfl
    · cases hfind : plex.find p with
      | some it => simp only [hfind]; rfl
      | none => simp only [hfind]; rfl

/-- C9: a path is fully processed at most once per run. A call of
process_file on a path already in processed_files returns False with
the state untouched and no effects: no sidecar read, no hash, no server
call, no cache change. A first call on a fresh path records the path in
processed_files, so the second call of any retried or duplicate event
is rejected as a duplicate. -/
theorem process_file_once (plex : Plex) (a d : Bool) (hf : List Nat → String)
    (st : AppState) (p : FPath) (timer : Bool) :
    (p ∈ st.processed → process_file plex a d hf st p timer = (false, st, []))
    ∧ (p ∉ st.processed → p ∈ (process_file plex a d hf st p timer).2.1.processed) := by
  constructor
  · intro hmem
    simp only [process_file]
    rw [if_pos hmem]
  · intro hnot
    simp only [process_file]
    rw [if_neg hnot]
    rw [process_file_status_processed, process_file_nfo_stage_processed]
    exact List.mem_cons_self p st.processed

/-- Witness for process_file_once: a first call on a fresh state
records the path; a repeat call on a state that has it is rejected. -/
theorem process_file_once_witness :
    (process_file examplePlex false true exampleHash
      { wState with processed := [wVideo] } wVideo false =
        (false, { wState with processed := [wVideo] }, []))
    ∧ wVideo ∈ (process_file examplePlex false true exampleHash wState wVideo false).2.1.processed := by
  constructor
  · exact (process_file_once examplePlex false true exampleHash
      { wState with processed := [wVideo] } wVideo false).1 (by decide)
  · exact (process_file_once examplePlex false true exampleHash
      wState wVideo false).2 (by decide)

/-- update_cache preserves the hash-implies-key shape whenever the call
supplies a ratingKey alongside any supplied nfo_hash - which every call
site of the source does. -/
theorem update_cache_hashImpliesKey (st : AppState) (p : FPath)
    (rk hsh : Option String) (hcond : hsh.isSome = true → rk.isSome = true)
    (hinv : hashImpliesKey st.cache) :
    hashImpliesKey (update_cache st p rk hsh).cache := by
  intro pe hpe
  simp only [update_cache] at hpe
  rcases mem_ainsert hpe with heq | hold
  · subst heq
    cases hrk : rk with
    | some k =>
      cases hh : hsh with
      | some hv => intro _; simp [hrk, hh]
      | none => intro _; simp [hrk, hh]
    | none =>
      cases hh : hsh with
      | some hv =>
        intro _
        have hk := hcond (by simp [hh])
        rw [hrk] at hk
        simp at hk
      | none =>
        intro hhash
        cases hlook : alookup st.cache p with
        | none => simp [hrk, hh, hlook] at hhash
        | some e0 =>
          have hm := hinv (p, e0) (alookup_mem hlook)
          simp only [hrk, hh, hlook] at hhash ⊢
          simp only [Option.getD] at hhash ⊢
          exact hm hhash
  · exact hinv pe hold

/-- The one-shot scan insertion of a found item preserves the shape. -/
theorem scan_add_found_hashImpliesKey (st : AppState) (p : FPath) (k : String)
    (hinv : hashImpliesKey st.cache) :
    hashImpliesKey (scan_add_found st p k).cache := by
  intro pe hpe
  simp only [scan_add_found] at hpe
  rcases mem_ainsert hpe with heq | hold
  · subst heq; intro hhash; simp at hhash
  · exact hinv pe hold

/-- The one-shot scan placeholder insertion preserves the shape. -/
theorem scan_add_placeholder_hashImpliesKey (st : AppState) (p : FPath)
    (hinv : hashImpliesKey st.cache) :
    hashImpliesKey (scan_add_placeholder st p).cache := by
  intro pe hpe
  simp only [scan_add_placeholder] at hpe
  rcases mem_ainsert hpe with heq | hold
  · subst heq; intro hhash; simp at hhash
  · exact hinv pe hold

/-- The apply phase preserves the hash-implies-key shape: its only
cache write records ratingKey and nfo_hash together. -/
theorem applyPhase_cacheInv (plex : Plex) (dflag : Bool) (st : AppState)
    (nfoP vP : FPath) (hsh : String) (it : Item) (effs : List Eff)
    (hinv : hashImpliesKey st.cache) :
    hashImpliesKey (applyPhase plex dflag st nfoP vP hsh it effs).2.1.cache := by
  simp only [applyPhase]
  split
  · rw [(deleteNfoStep_frame dflag
      (update_cache st vP (some it.ratingKey) (some hsh)) nfoP).1]
    exact update_cache_hashImpliesKey st vP (some it.ratingKey) (some hsh)
      (fun _ => rfl) hinv
  · exact hinv

/-- The resolve-and-apply block preserves the hash-implies-key shape:
it writes either a ratingKey alone or a ratingKey with a hash. -/
theorem resolveAndApply_cacheInv (plex : Plex) (a dflag : Bool) (st : AppState)
    (nfoP vP : FPath) (hsh : String) (cached : CacheEntry)
    (hinv : hashImpliesKey st.cache) :
    hashImpliesKey (resolveAndApply plex a dflag st nfoP vP hsh cached).2.1.cache := by
  simp only [resolveAndApply]
  split
  · cases hk : truthyKey cached.ratingKey with
    | some k =>
      simp only [hk]
      cases hf2 : plex.fetch k with
      | some it =>
        simp only [hf2]
        exact applyPhase_cacheInv plex dflag st nfoP vP hsh it [Eff.fetchItem k] hinv
      | none =>
        simp only [hf2]
        cases hfind : plex.find vP with
        | some it =>
          simp only [hfind]
          exact applyPhase_cacheInv plex dflag
            (update_cache st vP (some it.ratingKey) none) nfoP vP hsh it
            ([Eff.fetchItem k] ++ [Eff.findItem vP])
            (update_cache_hashImpliesKey st vP (some it.ratingKey) none
              (by simp) hinv)
        | none => simp only [hfind]; exact hinv
    | none =>
      simp only [hk]
      cases hfind : plex.find vP with
      | some it =>
        simp only [hfind]
        exact applyPhase_cacheInv plex dflag
          (update_cache st vP (some it.ratingKey) none) nfoP vP hsh it
          (([] : List Eff) ++ [Eff.findItem vP])
          (update_cache_hashImpliesKey st vP (some it.ratingKey) none
            (by simp) hinv)
      | none => simp only [hfind]; exact hinv
  · exact hinv

/-- process_nfo preserves the hash-implies-key shape of the cache. -/
theorem process_nfo_cacheInv (plex : Plex) (a d : Bool) (hf : List Nat → String)
    (st : AppState) (p : FPath) (hinv : hashImpliesKey st.cache) :
    hashImpliesKey (process_nfo plex a d hf st p).2.1.cache := by
  simp only [process_nfo]
  cases hl : alookup st.fs (resolveVideoPath st.fs p).1 with
  | none => exact hinv
  | some fd =>
    simp only []
    by_cases hsz : fd.size = 0
    · simp only [if_pos hsz]; exact hinv
    · rw [if_neg hsz]
      have hc : compute_nfo_hash hf st.fs (resolveVideoPath st.fs p).1 =
          some (hf fd.bytes) := by
        simp [compute_nfo_hash, hl]
      simp only [hc]
      split
      · rw [(deleteNfoStep_frame d st (resolveVideoPath st.fs p).1).1]
        exact hinv
      · exact resolveAndApply_cacheInv plex a d st
          (resolveVideoPath st.fs p).1 (resolveVideoPath st.fs p).2 (hf fd.bytes)
          ((alookup st.cache (resolveVideoPath st.fs p).2).getD
            { ratingKey := none, nfo_hash := none }) hinv

/-- The NFO stage of process_file preserves the shape. -/
theorem process_file_nfo_stage_cacheInv (plex : Plex) (a d : Bool)
    (hf : List Nat → String) (st0 : AppState) (p : FPath)
    (hinv : hashImpliesKey st0.cache) :
    hashImpliesKey (process_file_nfo_stage plex a d hf st0 p).2.1.cache := by
  simp only [process_file_nfo_stage]
  split
  · exact process_nfo_cacheInv plex a d hf st0 p hinv
  · split
    · split
      · exact process_nfo_cacheInv plex a d hf st0 (withSuffix p ".nfo") hinv
      · exact hinv
    · exact hinv

/-- The status tail of process_file preserves the shape: it writes a
ratingKey alone or an empty placeholder, never a bare hash. -/
theorem process_file_status_cacheInv (plex : Plex) (st1 : AppState) (p : FPath)
    (nfoApplied : Bool) (effs : List Eff) (hinv : hashImpliesKey st1.cache) :
    hashImpliesKey (process_file_status plex st1 p nfoApplied effs).2.1.cache := by
  simp only [process_file_status]
  split
  · exact hinv
  · split
    · exact hinv
    · cases hfind : plex.find p with
      | some it =>
        simp only [hfind]
        exact update_cache_hashImpliesKey st1 p (some it.ratingKey) none (by simp) hinv
      | none =>
        simp only [hfind]
        exact update_cache_hashImpliesKey st1 p none none (fun h => h) hinv

/-- process_file preserves the hash-implies-key shape of the cache. -/
theorem process_file_cacheInv (plex : Plex) (a d : Bool) (hf : List Nat → String)
    (st : AppState) (p : FPath) (timer : Bool) (hinv : hashImpliesKey st.cache) :
    hashImpliesKey (process_file plex a d hf st p timer).2.1.cache := by
  simp only [process_file]
  split
  · exact hinv
  · exact process_file_status_cacheInv plex _ p _ _
      (process_file_nfo_stage_cacheInv plex a d hf _ p hinv)

/-- Flushing never changes the cache entries. -/
theorem save_cache_cache (st : AppState) : (save_cache st).1.cache = st.cache := by
  unfold save_cache
  split <;> rfl

/-- C4: in every state reachable by the operations of the program from
a fresh run, a cache entry whose nfo_hash field is set also has its
ratingKey field set: no operation ever records a descriptor hash for a
path without an id. -/
theorem cache_hash_requires_key {st : AppState} (hr : Reach st) :
    ∀ p e, alookup st.cache p = some e →
      e.nfo_hash.isSome = true → e.ratingKey.isSome = true := by
  have hinv : hashImpliesKey st.cache := by
    induction hr with
    | init fs => intro pe hpe; simp at hpe
    | fsChange fs' hst ih => exact ih
    | stepNfo plex a d hfn p hst ih => exact process_nfo_cacheInv plex a d hfn _ p ih
    | stepFile plex a d hfn p timer hst ih =>
      exact process_file_cacheInv plex a d hfn _ p timer ih
    | stepRemove p hst ih =>
      unfold remove_from_cache
      split
      · intro pe hpe; exact ih pe (mem_aerase hpe)
      · exact ih
    | stepScanFound p k hst ih => exact scan_add_found_hashImpliesKey _ p k ih
    | stepScanPlaceholder p hst ih => exact scan_add_placeholder_hashImpliesKey _ p ih
    | stepScanRemove p hst ih => intro pe hpe; exact ih pe (mem_aerase hpe)
    | stepRepair p k hst ih =>
      exact update_cache_hashImpliesKey _ p (some k) none (by simp) ih
    | stepFlush hst ih => rw [save_cache_cache]; exact ih
  intro p e hl hh
  exact hinv (p, e) (alookup_mem hl) hh

/-- Witness for cache_hash_requires_key: one pipeline step from a fresh
state produces the entry (ratingKey 42, hash of the sidecar bytes), and
the theorem yields that its ratingKey is set. -/
theorem cache_hash_requires_key_witness :
    ({ ratingKey := some "42", nfo_hash := some "1,2" } : CacheEntry).ratingKey.isSome = true :=
  cache_hash_requires_key
    (Reach.stepNfo examplePlex false false exampleHash wVideo (Reach.init wFs))
    wVideo { ratingKey := some "42", nfo_hash := some "1,2" }
    (by decide) (by decide)

/-- For a video-path input the resolved pair is (sidecar, the input). -/
theorem resolveVideoPath_video (fs : FileSys) (p : FPath) (h : extLower p ≠ ".nfo") :
    resolveVideoPath fs p = (withSuffix p ".nfo", p) := by
  unfold resolveVideoPath
  rw [if_neg h]

/-- Prepending a hash-computation effect does not change the server
call count. -/
theorem serverCallCount_cons_computeHash (q : FPath) (l : List Eff) :
    serverCallCount (Eff.computeHash q :: l) = serverCallCount l := by
  simp [serverCallCount, List.filter_cons, Eff.isServer]

/-- Prepending a hash-computation effect does not change the edit
count. -/
theorem editCount_cons_computeHash (q : FPath) (l : List Eff) :
    editCount (Eff.computeHash q :: l) = editCount l := by
  simp [editCount, List.filter_cons, Eff.isEdit]

/-- apply_nfo issues at most one edit sequence. -/
theorem apply_nfo_editCount (plex : Plex) (fs : FileSys) (k : String) (p : FPath) :
    editCount (apply_nfo plex fs k p).2 ≤ 1 := by
  simp only [apply_nfo]
  split
  · simp [editCount]
  · split
    · simp [editCount]
    · split <;> simp [editCount, Eff.isEdit]

/-- The apply phase adds at most one edit to the carried effects. -/
theorem applyPhase_editCount (plex : Plex) (dflag : Bool) (st : AppState)
    (nfoP vP : FPath) (hsh : String) (it : Item) (effs : List Eff) :
    editCount (applyPhase plex dflag st nfoP vP hsh it effs).2.2 ≤ editCount effs + 1 := by
  simp only [applyPhase]
  split
  · rw [editCount_append, editCount_append]
    have h1 := apply_nfo_editCount plex st.fs it.ratingKey vP
    have h2 := (deleteNfoStep_effects dflag
      (update_cache st vP (some it.ratingKey) (some hsh)) nfoP).2
    omega
  · rw [editCount_append]
    have h1 := apply_nfo_editCount plex st.fs it.ratingKey vP
    omega

/-- The resolve-and-apply block issues at most one edit. -/
theorem resolveAndApply_editCount (plex : Plex) (a dflag : Bool) (st : AppState)
    (nfoP vP : FPath) (hsh : String) (cached : CacheEntry) :
    editCount (resolveAndApply plex a dflag st nfoP vP hsh cached).2.2 ≤ 1 := by
  simp only [resolveAndApply]
  split
  · cases hk : truthyKey cached.ratingKey with
    | some k =>
      simp only [hk]
      cases hf2 : plex.fetch k with
      | some it =>
        simp only [hf2]
        have := applyPhase_editCount plex dflag st nfoP vP hsh it [Eff.fetchItem k]
        simpa [editCount, Eff.isEdit] using this
      | none =>
        simp only [hf2]
        cases hfind : plex.find vP with
        | some it =>
          simp only [hfind]
          have := applyPhase_editCount plex dflag
            (update_cache st vP (some it.ratingKey) none) nfoP vP hsh it
            ([Eff.fetchItem k] ++ [Eff.findItem vP])
          simpa [editCount, Eff.isEdit] using this
        | none =>
          simp only [hfind]
          simp [editCount, Eff.isEdit]
    | none =>
      simp only [hk]
      cases hfind : plex.find vP with
      | some it =>
        simp only [hfind]
        have := applyPhase_editCount plex dflag
          (update_cache st vP (some it.ratingKey) none) nfoP vP hsh it
          (([] : List Eff) ++ [Eff.findItem vP])
        simpa [editCount, Eff.isEdit] using this
      | none =>
        simp only [hfind]
        simp [editCount, Eff.isEdit]
  · simp [editCount]

/-- One process_nfo invocation issues at most one edit, in every
branch and for every policy. -/
theorem process_nfo_editCount_le_one (plex : Plex) (a d : Bool)
    (hf : List Nat → String) (st : AppState) (p : FPath) :
    editCount (process_nfo plex a d hf st p).2.2 ≤ 1 := by
  simp only [process_nfo]
  cases hl : alookup st.fs (resolveVideoPath st.fs p).1 with
  | none => simp [editCount]
  | some fd =>
    simp only []
    by_cases hsz : fd.size = 0
    · simp [hsz, editCount]
    · rw [if_neg hsz]
      have hc : compute_nfo_hash hf st.fs (resolveVideoPath st.fs p).1 =
          some (hf fd.bytes) := by
        simp [compute_nfo_hash, hl]
      simp only [hc]
      split
      · rw [editCount_cons_computeHash]
        have := (deleteNfoStep_effects d st (resolveVideoPath st.fs p).1).2
        omega
      · rw [editCount_cons_computeHash]
        exact resolveAndApply_editCount plex a d st
          (resolveVideoPath st.fs p).1 (resolveVideoPath st.fs p).2 (hf fd.bytes)
          ((alookup st.cache (resolveVideoPath st.fs p).2).getD
            { ratingKey := none, nfo_hash := none })

/-- After an update that supplies an nfo_hash, the entry under the key
carries exactly that hash. -/
theorem update_cache_lookup_hash (st : AppState) (p : FPath) (rk : Option String)
    (hsh : String) :
    ∃ e, alookup (update_cache st p rk (some hsh)).cache p = some e
      ∧ e.nfo_hash = some hsh := by
  cases rk with
  | some k =>
    refine ⟨{ ratingKey := some k, nfo_hash := some hsh }, ?_, rfl⟩
    simp only [update_cache]
    rw [alookup_ainsert, if_pos rfl]
  | none =>
    refine ⟨{ ratingKey := ((alookup st.cache p).getD
        { ratingKey := none, nfo_hash := none }).ratingKey, nfo_hash := some hsh }, ?_, rfl⟩
    simp only [update_cache]
    rw [alookup_ainsert, if_pos rfl]

/-- A successful apply phase leaves the applied hash in the cache under
the video path. -/
theorem applyPhase_true_cache (plex : Plex) (dflag : Bool) (st : AppState)
    (nfoP vP : FPath) (hsh : String) (it : Item) (effs : List Eff)
    (hres : (applyPhase plex dflag st nfoP vP hsh it effs).1 = true) :
    ∃ e, alookup (applyPhase plex dflag st nfoP vP hsh it effs).2.1.cache vP = some e
      ∧ e.nfo_hash = some hsh := by
  simp only [applyPhase] at hres ⊢
  by_cases happly : (apply_nfo plex st.fs it.ratingKey vP).1 = true
  · rw [if_pos happly]
    rw [(deleteNfoStep_frame dflag
      (update_cache st vP (some it.ratingKey) (some hsh)) nfoP).1]
    exact update_cache_lookup_hash st vP (some it.ratingKey) hsh
  · rw [if_neg happly] at hres
    simp at hres

/-- A successful resolve-and-apply leaves the applied hash in the cache
under the video path, provided the mismatch-or-forced guard held (the
only way process_nfo reaches the block). -/
theorem resolveAndApply_true_cache (plex : Plex) (a dflag : Bool) (st : AppState)
    (nfoP vP : FPath) (hsh : String) (cached : CacheEntry)
    (hguard : cached.nfo_hash ≠ some hsh ∨ a = true)
    (hres : (resolveAndApply plex a dflag st nfoP vP hsh cached).1 = true) :
    ∃ e, alookup (resolveAndApply plex a dflag st nfoP vP hsh cached).2.1.cache vP = some e
      ∧ e.nfo_hash = some hsh := by
  simp only [resolveAndApply] at hres ⊢
  rw [if_pos hguard] at hres ⊢
  split at hres
  · rename_i it heq
    exact applyPhase_true_cache plex dflag st nfoP vP hsh it _ hres
  · rename_i heq
    split at hres
    · rename_i it heq2
      exact applyPhase_true_cache plex dflag
        (update_cache st vP (some it.ratingKey) none) nfoP vP hsh it _ hres
    · simp at hres

/-- A successful process_nfo run on a video path with a usable sidecar
leaves the cache holding the hash of exactly those sidecar bytes. -/
theorem process_nfo_true_cache (plex : Plex) (d : Bool) (hf : List Nat → String)
    (st : AppState) (p : FPath) (fd : FileData)
    (hext : extLower p ≠ ".nfo")
    (hfd : alookup st.fs (withSuffix p ".nfo") = some fd)
    (hsz : fd.size ≠ 0)
    (hres : (process_nfo plex false d hf st p).1 = true) :
    ∃ e, alookup (process_nfo plex false d hf st p).2.1.cache p = some e
      ∧ e.nfo_hash = some (hf fd.bytes) := by
  have hrv := resolveVideoPath_video st.fs p hext
  simp only [process_nfo, hrv] at hres ⊢
  rw [hfd] at hres ⊢
  simp only [] at hres ⊢
  rw [if_neg hsz] at hres ⊢
  have hc : compute_nfo_hash hf st.fs (withSuffix p ".nfo") = some (hf fd.bytes) := by
    simp [compute_nfo_hash, hfd]
  rw [hc] at hres ⊢
  simp only [] at hres ⊢
  by_cases hgate : ((alookup st.cache p).getD
      { ratingKey := none, nfo_hash := none }).nfo_hash = some (hf fd.bytes)
  · rw [if_pos (And.intro hgate trivial)]
    show ∃ e, alookup (deleteNfoStep d st (withSuffix p ".nfo")).1.cache p = some e
      ∧ e.nfo_hash = some (hf fd.bytes)
    rw [(deleteNfoStep_frame d st (withSuffix p ".nfo")).1]
    cases hlook : alookup st.cache p with
    | none => rw [hlook] at hgate; simp at hgate
    | some e0 =>
      refine ⟨e0, rfl, ?_⟩
      rw [hlook] at hgate
      simpa using hgate
  · rw [if_neg (fun hc2 => hgate hc2.1)] at hres ⊢
    exact resolveAndApply_true_cache plex false d st (withSuffix p ".nfo") p
      (hf fd.bytes)
      ((alookup st.cache p).getD { ratingKey := none, nfo_hash := none })
      (Or.inl hgate) hres

/-- With always_apply false, a usable sidecar whose hash is already in
the cache short-circuits at the idempotence gate: success, no server
call of any kind, no edit. -/
theorem process_nfo_cache_hit (plex : Plex) (d : Bool) (hf : List Nat → String)
    (st : AppState) (p : FPath) (fd : FileData)
    (hext : extLower p ≠ ".nfo")
    (hfd : alookup st.fs (withSuffix p ".nfo") = some fd)
    (hsz : fd.size ≠ 0)
    (hcached : ∃ e, alookup st.cache p = some e ∧ e.nfo_hash = some (hf fd.bytes)) :
    (process_nfo plex false d hf st p).1 = true
    ∧ serverCallCount (process_nfo plex false d hf st p).2.2 = 0
    ∧ editCount (process_nfo plex false d hf st p).2.2 = 0 := by
  obtain ⟨e, hlook, hhash⟩ := hcached
  have hrv := resolveVideoPath_video st.fs p hext
  simp only [process_nfo, hrv]
  rw [hfd]
  simp only []
  rw [if_neg hsz]
  have hc : compute_nfo_hash hf st.fs (withSuffix p ".nfo") = some (hf fd.bytes) := by
    simp [compute_nfo_hash, hfd]
  rw [hc]
  simp only []
  have hgateX : ((alookup st.cache p).getD
      { ratingKey := none, nfo_hash := none }).nfo_hash = some (hf fd.bytes) := by
    rw [hlook]; simpa using hhash
  rw [if_pos (And.intro hgateX trivial)]
  refine ⟨rfl, ?_, ?_⟩
  · show serverCallCount (Eff.computeHash (withSuffix p ".nfo") ::
        (deleteNfoStep d st (withSuffix p ".nfo")).2) = 0
    rw [serverCallCount_cons_computeHash]
    exact (deleteNfoStep_effects d st (withSuffix p ".nfo")).1
  · show editCount (Eff.computeHash (withSuffix p ".nfo") ::
        (deleteNfoStep d st (withSuffix p ".nfo")).2) = 0
    rw [editCount_cons_computeHash]
    exact (deleteNfoStep_effects d st (withSuffix p ".nfo")).2

/-- C3: applying the same sidecar twice with always_apply false issues
at most one edit in total. If the first invocation succeeds and the
sidecar is still present with the same bytes at the second invocation,
the second finds the cached hash equal, short-circuits at the gate,
returns success, and makes no server call of any kind. -/
theorem nfo_apply_idempotent (plex : Plex) (d : Bool) (hf : List Nat → String)
    (st0 : AppState) (p : FPath) (fd fd' : FileData)
    (hext : extLower p ≠ ".nfo")
    (h0 : alookup st0.fs (withSuffix p ".nfo") = some fd)
    (hs0 : fd.size ≠ 0)
    (hr1 : (process_nfo plex false d hf st0 p).1 = true)
    (h1 : alookup (process_nfo plex false d hf st0 p).2.1.fs (withSuffix p ".nfo") = some fd')
    (hbytes : fd'.bytes = fd.bytes)
    (hs1 : fd'.size ≠ 0) :
    (process_nfo plex false d hf (process_nfo plex false d hf st0 p).2.1 p).1 = true
    ∧ serverCallCount
        (process_nfo plex false d hf (process_nfo plex false d hf st0 p).2.1 p).2.2 = 0
    ∧ editCount ((process_nfo plex false d hf st0 p).2.2
        ++ (process_nfo plex false d hf (process_nfo plex false d hf st0 p).2.1 p).2.2) ≤ 1 := by
  obtain ⟨e, hlook, hhash⟩ := process_nfo_true_cache plex d hf st0 p fd hext h0 hs0 hr1
  have hcached : ∃ e, alookup (process_nfo plex false d hf st0 p).2.1.cache p = some e
      ∧ e.nfo_hash = some (hf fd'.bytes) :=
    ⟨e, hlook, by rw [hbytes]; exact hhash⟩
  have hhit := process_nfo_cache_hit plex d hf (process_nfo plex false d hf st0 p).2.1 p
    fd' hext h1 hs1 hcached
  refine ⟨hhit.1, hhit.2.1, ?_⟩
  rw [editCount_append]
  have hle := process_nfo_editCount_le_one plex false d hf st0 p
  have h2 := hhit.2.2
  omega

/-- Witness for nfo_apply_idempotent: the concrete fixture run twice
with deletion off; the first run edits item 42, the second is a cache
hit with no server call. -/
theorem nfo_apply_idempotent_witness :
    (process_nfo examplePlex false false exampleHash
        (process_nfo examplePlex false false exampleHash wState wVideo).2.1 wVideo).1 = true
    ∧ serverCallCount (process_nfo examplePlex false false exampleHash
        (process_nfo examplePlex false false exampleHash wState wVideo).2.1 wVideo).2.2 = 0
    ∧ editCount ((process_nfo examplePlex false false exampleHash wState wVideo).2.2
        ++ (process_nfo examplePlex false false exampleHash
            (process_nfo examplePlex false false exampleHash wState wVideo).2.1 wVideo).2.2) ≤ 1 :=
  nfo_apply_idempotent examplePlex false exampleHash wState wVideo
    { size := 4, bytes := [1, 2] } { size := 4, bytes := [1, 2] }
    (by decide) (by decide) (by decide) (by decide) (by decide) (by decide) (by decide)
